import Mathlib

/-!
Verification development for the GLORYxR reaction-rule engine and
SOM-annotation/scoring pipeline.

The Python sources are shallowly embedded: RDKit molecules become explicit
lists of atoms carrying exactly the properties the code reads
(`react_atom_idx`, `old_mapno`, atom map numbers, atomic numbers), Python
dicts become insertion-ordered association lists with overwrite-in-place
semantics, numpy distance computations become explicit folds over `Nat`
distances, floats carrying possible NaN become `Option ℚ` with NaN
comparisons evaluating to `false`, and fallible code returns `Option` or
`Except`.  External capabilities (canonical SMILES, InChI, the vectorizer
and the model provider) are abstract function parameters.
-/

namespace GloryxR

/-! ### Python dictionaries as insertion-ordered association lists -/

/-- Python dict assignment `d[k] = v`: overwrite the key's entry in place if
the key exists (keeping its position), otherwise append at the end. -/
def dictInsert {α β : Type} [DecidableEq α] : List (α × β) → α → β → List (α × β)
  | [], k, v => [(k, v)]
  | p :: d, k, v => if p.1 = k then (k, v) :: d else p :: dictInsert d k v

/-- Python dict lookup `d[k]` (as an `Option`). -/
def dictFind {α β : Type} [DecidableEq α] : List (α × β) → α → Option β
  | [], _ => none
  | p :: d, k => if p.1 = k then some p.2 else dictFind d k

/-- Python `d.keys()` in insertion order. -/
def dictKeys {α β : Type} (d : List (α × β)) : List α := d.map (fun p => p.1)

/-- Python `d.values()` in insertion order. -/
def dictVals {α β : Type} (d : List (α × β)) : List β := d.map (fun p => p.2)

/-! ### Molecules as read by `som.py`

A product atom carries the RDKit reaction bookkeeping properties that
`som.py` reads: the optional `react_atom_idx` (index of the educt atom it
came from), the optional `old_mapno` (atom map number from the reaction
SMARTS), its atomic number and its current atom map number.  An educt atom
only ever has its atom map number read or written. -/

structure PAtom where
  atomicNum : Nat
  reactAtomIdx : Option Nat
  oldMapno : Option Nat
  atomMapNum : Nat
deriving DecidableEq

structure EAtom where
  atomMapNum : Nat
deriving DecidableEq

/-- Educt molecule: atom list plus its topological distance matrix
(`GetDistanceMatrix`), as a function of two atom indices. -/
structure EMol where
  atoms : List EAtom
  dist : Nat → Nat → Nat

/-- Product molecule, with the same shape. -/
structure PMol where
  atoms : List PAtom
  dist : Nat → Nat → Nat

/-! ### `som.py` -/

/-- One step of the dict comprehension building `involved_idx_mappings`:
an enumerated product atom `(idx, atom)` contributes the entry
`react_atom_idx ↦ idx` when the property is present and the atom is not
hydrogen. -/
def involvedStep (d : List (Nat × Nat)) (p : Nat × PAtom) : List (Nat × Nat) :=
  match p.2.reactAtomIdx with
  | some r => if p.2.atomicNum ≠ 1 then dictInsert d r p.1 else d
  | none => d

/-- The dict comprehension building `involved_idx_mappings` in
`_get_strict_som_indices`: maps `react_atom_idx` to product atom index for
every non-hydrogen product atom carrying the property. -/
def involved_idx_mappings (product : PMol) : List (Nat × Nat) :=
  product.atoms.enum.foldl involvedStep []

/-- `added_by_reaction_idx`: product atoms with no `react_atom_idx`. -/
def added_by_reaction_idx (product : PMol) : List Nat :=
  (product.atoms.enum.filter (fun p => p.2.reactAtomIdx.isNone)).map (fun p => p.1)

/-- `removed_by_reaction_idx`: educt atoms whose index is not a key of
`involved_idx_mappings`. -/
def removed_by_reaction_idx (educt : EMol) (product : PMol) : List Nat :=
  (List.range educt.atoms.length).filter
    (fun i => ¬ i ∈ dictKeys (involved_idx_mappings product))

/-- Row minimum of the sliced distance matrix:
`GetDistanceMatrix(mol)[:, reference_idx].min(axis=1)` evaluated at row `i`.
Only meaningful for a non-empty `reference` (numpy raises otherwise; both
call sites guard non-emptiness). -/
def nearestDist (D : Nat → Nat → Nat) (reference : List Nat) (i : Nat) : Nat :=
  match reference with
  | [] => 0
  | r :: rs => rs.foldl (fun m x => min m (D i x)) (D i r)

/-- `_get_closest_idxs`: among `filt`, the indices whose distance to the
nearest `reference` index attains the global minimum over `filt`
(`np.argwhere(distances == distances.min(initial=np.inf))`; an empty `filt`
yields an empty result). -/
def _get_closest_idxs (D : Nat → Nat → Nat) (reference filt : List Nat) : List Nat :=
  match (filt.map (nearestDist D reference)).min? with
  | none => []
  | some m =>
    ((filt.zip (filt.map (nearestDist D reference))).filter
      (fun p => p.2 = m)).map (fun p => p.1)

/-- `_get_strict_som_indices`. -/
def _get_strict_som_indices (educt : EMol) (product : PMol) : List Nat :=
  if removed_by_reaction_idx educt product ≠ [] then
    (_get_closest_idxs educt.dist (removed_by_reaction_idx educt product)
        (dictKeys (involved_idx_mappings product))).filterMap
      (fun idx => dictFind (involved_idx_mappings product) idx)
  else if added_by_reaction_idx product ≠ [] then
    _get_closest_idxs product.dist (added_by_reaction_idx product)
      (dictVals (involved_idx_mappings product))
  else []

/-- `_get_loose_som_indices`: product atoms with an `old_mapno` property
that are not hydrogen. -/
def _get_loose_som_indices (product : PMol) : List Nat :=
  (product.atoms.enum.filter
    (fun p => p.2.oldMapno.isSome && decide (p.2.atomicNum ≠ 1))).map (fun p => p.1)

/-- The index selection of `annotate_educt_and_product_inplace`. -/
def somIndices (strict_soms : Bool) (educt : EMol) (product : PMol) : List Nat :=
  if strict_soms then _get_strict_som_indices educt product
  else _get_loose_som_indices product

/-- One iteration of the annotation loop: read the product atom, compute
`mapno` (`old_mapno` when present, else `1`), set the product atom's map
number, then set the map number of the educt atom at the product atom's
`react_atom_idx`.  A missing atom index or a missing `react_atom_idx`
property raises in Python, modelled by `none`. -/
def annotateStep (st : EMol × PMol) (idx : Nat) : Option (EMol × PMol) :=
  match st.2.atoms[idx]? with
  | none => none
  | some atom =>
    match atom.reactAtomIdx with
    | none => none
    | some r =>
      match st.1.atoms[r]? with
      | none => none
      | some eatom =>
        some ({ st.1 with atoms := (st.1.atoms.set r
                  ({ eatom with atomMapNum := atom.oldMapno.getD 1 })) },
              { st.2 with atoms := (st.2.atoms.set idx
                  ({ atom with atomMapNum := atom.oldMapno.getD 1 })) })

/-- `annotate_educt_and_product_inplace`: in-place mutation becomes explicit
state passing over the pair (educt, product). -/
def annotate_educt_and_product_inplace (strict_soms : Bool) (educt : EMol)
    (product : PMol) : Option (EMol × PMol) :=
  (somIndices strict_soms educt product).foldlM annotateStep (educt, product)

/-! ### Helper lemmas: enumeration and dictionaries -/

theorem mem_enumFrom_iff {α : Type} (l : List α) (n i : Nat) (a : α) :
    (i, a) ∈ l.enumFrom n ↔ ∃ j, i = n + j ∧ l[j]? = some a := by
  induction l generalizing n with
  | nil => simp [List.enumFrom]
  | cons b t ih =>
    simp only [List.enumFrom_cons, List.mem_cons, Prod.mk.injEq, ih]
    constructor
    · rintro (⟨rfl, rfl⟩ | ⟨j, rfl, hj⟩)
      · exact ⟨0, by simp⟩
      · exact ⟨j + 1, by omega, by simpa using hj⟩
    · rintro ⟨j, rfl, hj⟩
      cases j with
      | zero => left; constructor; · omega
                simpa using hj.symm
      | succ j => right; exact ⟨j, by omega, by simpa using hj⟩

theorem mem_enum_iff {α : Type} (l : List α) (i : Nat) (a : α) :
    (i, a) ∈ l.enum ↔ l[i]? = some a := by
  have h := mem_enumFrom_iff l 0 i a
  simp only [List.enum]
  rw [h]
  constructor
  · rintro ⟨j, rfl, hj⟩; simpa using hj
  · intro h2; exact ⟨i, by omega, h2⟩

theorem mem_dictInsert {α β : Type} [DecidableEq α] (d : List (α × β)) (k : α)
    (v : β) (p : α × β) (hp : p ∈ dictInsert d k v) : p = (k, v) ∨ p ∈ d := by
  induction d with
  | nil => simpa [dictInsert] using hp
  | cons q rest ih =>
    rw [dictInsert] at hp
    split at hp
    · rcases List.mem_cons.mp hp with h | h
      · left; exact h
      · right; exact List.mem_cons_of_mem q h
    · rcases List.mem_cons.mp hp with h | h
      · right; exact h ▸ List.mem_cons_self q rest
      · rcases ih h with h2 | h2
        · left; exact h2
        · right; exact List.mem_cons_of_mem q h2

theorem dictFind_dictInsert {α β : Type} [DecidableEq α] (d : List (α × β))
    (k : α) (v : β) (x : α) :
    dictFind (dictInsert d k v) x = if x = k then some v else dictFind d x := by
  induction d with
  | nil =>
    by_cases hxk : x = k
    · subst hxk; simp [dictInsert, dictFind]
    · have hkx : ¬ k = x := fun h => hxk h.symm
      simp [dictInsert, dictFind, hxk, hkx]
  | cons q rest ih =>
    rw [dictInsert]
    by_cases hqk : q.1 = k
    · rw [if_pos hqk]
      by_cases hxk : x = k
      · subst hxk; simp [dictFind]
      · have hkx : ¬ k = x := fun h => hxk h.symm
        have hqx : ¬ q.1 = x := by rw [hqk]; exact hkx
        simp [dictFind, hkx, hqx, hxk]
    · rw [if_neg hqk]
      by_cases hqx : q.1 = x
      · have hxk : ¬ x = k := fun h => hqk (h ▸ hqx)
        simp [dictFind, hqx, hxk]
      · simp [dictFind, hqx, ih]

theorem mem_enum_iff2 {α : Type} (l : List α) (q : Nat × α) :
    q ∈ l.enum ↔ l[q.1]? = some q.2 := by
  cases q with
  | mk i a => exact mem_enum_iff l i a

theorem dictFind_mem {α β : Type} [DecidableEq α] (d : List (α × β)) (k : α)
    (v : β) (h : dictFind d k = some v) : (k, v) ∈ d := by
  induction d with
  | nil => simp [dictFind] at h
  | cons q rest ih =>
    rw [dictFind] at h
    split at h
    · rename_i hqk
      have hv : q.2 = v := by injection h
      have hkv : (k, v) = q := by
        cases q with
        | mk a b => simp only at hqk hv; rw [hqk, hv]
      rw [hkv]
      exact List.mem_cons_self q rest
    · exact List.mem_cons_of_mem q (ih h)

theorem zip_self_map {α β : Type} (l : List α) (f : α → β) :
    l.zip (l.map f) = l.map (fun a => (a, f a)) := by
  induction l with
  | nil => rfl
  | cons a t ih => simp [ih]

/-! ### Characterization of `_get_closest_idxs` -/

theorem closest_idxs_of_min (D : Nat → Nat → Nat) (reference filt : List Nat)
    (m : Nat) (hm : (filt.map (nearestDist D reference)).min? = some m) :
    _get_closest_idxs D reference filt =
      ((filt.zip (filt.map (nearestDist D reference))).filter
        (fun p => p.2 = m)).map (fun p => p.1) := by
  unfold _get_closest_idxs
  rw [hm]

theorem closest_idxs_eq_filter (D : Nat → Nat → Nat) (reference filt : List Nat) :
    _get_closest_idxs D reference filt =
      filt.filter (fun i =>
        (filt.map (nearestDist D reference)).min?
          = some (nearestDist D reference i)) := by
  cases hm : (filt.map (nearestDist D reference)).min? with
  | none =>
    have hnil : filt = [] := by
      cases filt with
      | nil => rfl
      | cons a t => simp [List.map_cons, List.min?_cons] at hm
    subst hnil
    rfl
  | some m =>
    rw [closest_idxs_of_min D reference filt m hm]
    rw [zip_self_map, List.filter_map, List.map_map]
    have h1 : ((fun p : Nat × Nat => p.1) ∘ fun a => (a, nearestDist D reference a))
        = id := rfl
    rw [h1, List.map_id]
    apply List.filter_congr
    intro x _
    simp only [Function.comp_apply, decide_eq_decide]
    constructor
    · intro h3; rw [h3]
    · intro h3; injection h3 with h4; exact h4.symm

theorem mem_closest_idxs {D : Nat → Nat → Nat} {reference filt : List Nat}
    {i : Nat} (h : i ∈ _get_closest_idxs D reference filt) : i ∈ filt := by
  rw [closest_idxs_eq_filter] at h
  exact (List.mem_filter.mp h).1

/-! ### Invariant of the `involved_idx_mappings` dictionary -/

/-- Every entry `(r, idx)` of the involved-atoms dictionary comes from a
non-hydrogen product atom at index `idx` whose `react_atom_idx` is `r`. -/
def InvolvedEntry (product : PMol) (p : Nat × Nat) : Prop :=
  ∃ a, product.atoms[p.2]? = some a ∧ a.reactAtomIdx = some p.1 ∧ a.atomicNum ≠ 1

theorem involvedStep_mem (product : PMol) (d : List (Nat × Nat)) (q : Nat × PAtom)
    (hq : product.atoms[q.1]? = some q.2) (hd : ∀ p ∈ d, InvolvedEntry product p) :
    ∀ p ∈ involvedStep d q, InvolvedEntry product p := by
  intro p hp
  unfold involvedStep at hp
  split at hp
  · rename_i r hr
    split at hp
    · rename_i hnum
      rcases mem_dictInsert d r q.1 p hp with h | h
      · subst h
        exact ⟨q.2, hq, hr, hnum⟩
      · exact hd p h
    · exact hd p hp
  · exact hd p hp

theorem involved_mem (product : PMol) :
    ∀ p ∈ involved_idx_mappings product, InvolvedEntry product p := by
  have main : ∀ (l : List (Nat × PAtom)) (d : List (Nat × Nat)),
      (∀ q ∈ l, product.atoms[q.1]? = some q.2) →
      (∀ p ∈ d, InvolvedEntry product p) →
      ∀ p ∈ l.foldl involvedStep d, InvolvedEntry product p := by
    intro l
    induction l with
    | nil => intro d _ hd; exact hd
    | cons q t ih =>
      intro d hl hd
      rw [List.foldl_cons]
      exact ih (involvedStep d q)
        (fun q2 hq2 => hl q2 (List.mem_cons_of_mem q hq2))
        (involvedStep_mem product d q (hl q (List.mem_cons_self q t)) hd)
  intro p hp
  exact main product.atoms.enum []
    (fun q hq => (mem_enum_iff2 product.atoms q).mp hq) (by simp) p hp

/-- Shortest educt graph-distance from a common atom to the nearest removed
educt atom. -/
def commonAtomDist (educt : EMol) (product : PMol) : Nat → Nat :=
  nearestDist educt.dist (removed_by_reaction_idx educt product)

/-- Global minimum of `commonAtomDist` over all common atoms (`none` when
there are no common atoms). -/
def minCommonDist (educt : EMol) (product : PMol) : Option Nat :=
  ((dictKeys (involved_idx_mappings product)).map (commonAtomDist educt product)).min?

/-- C1: in strict annotation mode, when removed educt atoms exist, the
site-labelled atoms are exactly the common atoms (educt atoms with a
surviving non-hydrogen product counterpart, i.e. the keys of
`involved_idx_mappings`) whose educt graph-distance to the nearest removed
atom attains the global minimum of that distance over all common atoms; in
particular, for two common atoms equidistant at that minimum, both product
counterparts are labelled, never only one. -/
theorem strict_som_sites_are_exactly_minimal_common_atoms (educt : EMol)
    (product : PMol) (hrem : removed_by_reaction_idx educt product ≠ []) :
    _get_strict_som_indices educt product =
      ((dictKeys (involved_idx_mappings product)).filter
        (fun e => minCommonDist educt product
          = some (commonAtomDist educt product e))).filterMap
        (fun e => dictFind (involved_idx_mappings product) e) ∧
    ∀ e1 e2, e1 ∈ dictKeys (involved_idx_mappings product) →
      e2 ∈ dictKeys (involved_idx_mappings product) →
      commonAtomDist educt product e1 = commonAtomDist educt product e2 →
      minCommonDist educt product = some (commonAtomDist educt product e1) →
      ∀ p1 p2, dictFind (involved_idx_mappings product) e1 = some p1 →
        dictFind (involved_idx_mappings product) e2 = some p2 →
        p1 ∈ _get_strict_som_indices educt product ∧
        p2 ∈ _get_strict_som_indices educt product := by
  have h1 : _get_strict_som_indices educt product =
      ((dictKeys (involved_idx_mappings product)).filter
        (fun e => minCommonDist educt product
          = some (commonAtomDist educt product e))).filterMap
        (fun e => dictFind (involved_idx_mappings product) e) := by
    unfold _get_strict_som_indices
    rw [if_pos hrem]
    unfold minCommonDist commonAtomDist
    rw [closest_idxs_eq_filter]
  refine ⟨h1, ?_⟩
  intro e1 e2 he1 he2 htie hmin p1 p2 hf1 hf2
  rw [h1]
  constructor
  · exact List.mem_filterMap.mpr
      ⟨e1, List.mem_filter.mpr ⟨he1, decide_eq_true hmin⟩, hf1⟩
  · exact List.mem_filterMap.mpr
      ⟨e2, List.mem_filter.mpr ⟨he2, decide_eq_true (htie ▸ hmin)⟩, hf2⟩

/-- Witness educt for C1: a three-atom path-graph educt. -/
def eductC1 : EMol :=
  { atoms := [⟨0⟩, ⟨0⟩, ⟨0⟩], dist := fun i j => max i j - min i j }

/-- Witness product for C1: two surviving carbon atoms mapped from educt
atoms 0 and 1; educt atom 2 is removed. -/
def productC1 : PMol :=
  { atoms := [⟨6, some 0, some 2, 0⟩, ⟨6, some 1, some 3, 0⟩],
    dist := fun _ _ => 0 }

theorem strict_som_sites_witness :
    removed_by_reaction_idx eductC1 productC1 ≠ [] ∧
      _get_strict_som_indices eductC1 productC1 = [1] := by
  have h := (strict_som_sites_are_exactly_minimal_common_atoms eductC1 productC1
    (by decide)).1
  refine ⟨by decide, ?_⟩
  rw [h]
  decide

/-- C10: in both annotation modes, every product atom index selected for
labelling refers to a non-hydrogen atom. -/
theorem som_indices_are_never_hydrogen (strict_soms : Bool) (educt : EMol)
    (product : PMol) (i : Nat) (hi : i ∈ somIndices strict_soms educt product)
    (a : PAtom) (ha : product.atoms[i]? = some a) : a.atomicNum ≠ 1 := by
  cases strict_soms with
  | false =>
    simp only [somIndices, Bool.false_eq_true, if_false] at hi
    unfold _get_loose_som_indices at hi
    rcases List.mem_map.mp hi with ⟨q, hq, hqi⟩
    rcases List.mem_filter.mp hq with ⟨hqe, hpred⟩
    simp only [Bool.and_eq_true, decide_eq_true_eq] at hpred
    have hget : product.atoms[q.1]? = some q.2 := (mem_enum_iff2 product.atoms q).mp hqe
    rw [hqi] at hget
    rw [hget] at ha
    injection ha with ha2
    rw [← ha2]
    exact hpred.2
  | true =>
    simp only [somIndices, if_true] at hi
    unfold _get_strict_som_indices at hi
    split at hi
    · rcases List.mem_filterMap.mp hi with ⟨k, _, hfind⟩
      rcases involved_mem product (k, i) (dictFind_mem _ k i hfind) with
        ⟨a2, ha2, _, hnum⟩
      rw [ha2] at ha
      injection ha with ha3
      rw [← ha3]
      exact hnum
    · split at hi
      · have hv : i ∈ dictVals (involved_idx_mappings product) := mem_closest_idxs hi
        rcases List.mem_map.mp hv with ⟨p, hp, hpi⟩
        rcases involved_mem product p hp with ⟨a2, ha2, _, hnum⟩
        rw [hpi] at ha2
        rw [ha2] at ha
        injection ha with ha3
        rw [← ha3]
        exact hnum
      · cases hi

/-- Witness product for C10: one non-hydrogen mapped atom. -/
def productC10 : PMol :=
  { atoms := [⟨6, some 0, some 1, 0⟩], dist := fun _ _ => 0 }

/-- Witness educt for C10. -/
def eductC10 : EMol := { atoms := [⟨0⟩], dist := fun _ _ => 0 }

theorem som_indices_witness :
    (0 ∈ somIndices false eductC10 productC10) ∧
      (⟨6, some 0, some 1, 0⟩ : PAtom).atomicNum ≠ 1 :=
  ⟨by decide,
   som_indices_are_never_hydrogen false eductC10 productC10 0 (by decide)
     ⟨6, some 0, some 1, 0⟩ (by decide)⟩

/-! ### The annotation loop (claim C2) -/

theorem annotateStep_eq_some (st : EMol × PMol) (idx : Nat) (out : EMol × PMol)
    (h : annotateStep st idx = some out) :
    ∃ a r eatom, st.2.atoms[idx]? = some a ∧ a.reactAtomIdx = some r ∧
      st.1.atoms[r]? = some eatom ∧
      out = ({ st.1 with atoms := (st.1.atoms.set r
                 ({ eatom with atomMapNum := a.oldMapno.getD 1 })) },
             { st.2 with atoms := (st.2.atoms.set idx
                 ({ a with atomMapNum := a.oldMapno.getD 1 })) }) := by
  unfold annotateStep at h
  split at h
  · exact Option.noConfusion h
  · rename_i a ha
    split at h
    · exact Option.noConfusion h
    · rename_i r hr
      split at h
      · exact Option.noConfusion h
      · rename_i eatom he
        injection h with h2
        exact ⟨a, r, eatom, ha, hr, he, h2.symm⟩

/-- The educt atom index a product atom at index `i` propagates its label to
(`react_atom_idx`), when defined. -/
def reactTarget (product : PMol) (i : Nat) : Option Nat :=
  (product.atoms[i]?).bind (fun a => a.reactAtomIdx)

/-- The atoms at the given product indices write to pairwise distinct educt
atoms. -/
def ReactInjOn (product : PMol) (idxs : List Nat) : Prop :=
  ∀ i1 ∈ idxs, ∀ i2 ∈ idxs,
    reactTarget product i1 = reactTarget product i2 → i1 = i2

theorem reactTarget_set_ne (product : PMol) (i0 i : Nat) (b : PAtom)
    (hne : i0 ≠ i) :
    reactTarget ({ product with atoms := product.atoms.set i0 b }) i =
      reactTarget product i := by
  unfold reactTarget
  dsimp only
  rw [List.getElem?_set_ne hne]

theorem annotateLoop_spec (idxs : List Nat) :
    ∀ (educt : EMol) (product : PMol) (e1 : EMol) (p1 : PMol),
      idxs.foldlM annotateStep (educt, product) = some (e1, p1) →
      ((∀ j, j ∉ idxs → p1.atoms[j]? = product.atoms[j]?) ∧
       (∀ s, (∀ i ∈ idxs, reactTarget product i ≠ some s) →
          e1.atoms[s]? = educt.atoms[s]?) ∧
       (idxs.Nodup → ReactInjOn product idxs →
        ∀ i ∈ idxs, ∀ a : PAtom, product.atoms[i]? = some a →
          ∃ r, a.reactAtomIdx = some r ∧
            p1.atoms[i]? = some { a with atomMapNum := a.oldMapno.getD 1 } ∧
            (e1.atoms[r]?).map EAtom.atomMapNum = some (a.oldMapno.getD 1))) := by
  induction idxs with
  | nil =>
    intro educt product e1 p1 h
    rw [List.foldlM_nil] at h
    injection h with h2
    have he : educt = e1 := congrArg Prod.fst h2
    have hp : product = p1 := congrArg Prod.snd h2
    subst he
    subst hp
    exact ⟨fun j _ => rfl, fun s _ => rfl,
      fun _ _ i hi => absurd hi (List.not_mem_nil i)⟩
  | cons i0 rest ih =>
    intro educt product e1 p1 h
    rw [List.foldlM_cons] at h
    cases hstep : annotateStep (educt, product) i0 with
    | none => rw [hstep] at h; exact Option.noConfusion h
    | some st =>
      rw [hstep] at h
      simp only [Option.pure_def, Option.bind_eq_bind, Option.some_bind] at h
      obtain ⟨a0, r0, eatom0, ha0, hr0, he0, hout⟩ :=
        annotateStep_eq_some _ _ _ hstep
      dsimp only at ha0 hr0 he0
      subst hout
      obtain ⟨hi0len, _⟩ := List.getElem?_eq_some.mp ha0
      obtain ⟨hr0len, _⟩ := List.getElem?_eq_some.mp he0
      obtain ⟨IH1, IH2, IH3⟩ := ih _ _ _ _ h
      dsimp only at IH1 IH2 IH3
      have htarget0 : reactTarget product i0 = some r0 := by
        unfold reactTarget
        rw [ha0]
        exact hr0
      have hP2 : (product.atoms.set i0
          ({ a0 with atomMapNum := a0.oldMapno.getD 1 }))[i0]? =
          some ({ a0 with atomMapNum := a0.oldMapno.getD 1 }) :=
        List.getElem?_set_self hi0len
      have hE2 : (educt.atoms.set r0
          ({ eatom0 with atomMapNum := a0.oldMapno.getD 1 }))[r0]? =
          some ({ eatom0 with atomMapNum := a0.oldMapno.getD 1 }) :=
        List.getElem?_set_self hr0len
      refine ⟨?_, ?_, ?_⟩
      · -- untouched product positions
        intro j hj
        have hj0 : i0 ≠ j := fun hh => hj (hh ▸ List.mem_cons_self i0 rest)
        have hjr : j ∉ rest := fun hh => hj (List.mem_cons_of_mem i0 hh)
        exact (IH1 j hjr).trans (List.getElem?_set_ne hj0)
      · -- untouched educt positions
        intro s hs
        have hs0 : s ≠ r0 := by
          intro hh
          exact hs i0 (List.mem_cons_self i0 rest) (by rw [htarget0, hh])
        have hcond : ∀ i ∈ rest,
            reactTarget ({ product with atoms := (product.atoms.set i0
              ({ a0 with atomMapNum := a0.oldMapno.getD 1 })) }) i ≠ some s := by
          intro i hi
          by_cases hii : i = i0
          · subst hii
            unfold reactTarget
            dsimp only
            rw [hP2]
            intro hcontra
            have h1 : a0.reactAtomIdx = some s := hcontra
            rw [hr0] at h1
            injection h1 with h2
            exact hs0 h2.symm
          · rw [reactTarget_set_ne product i0 i _ (fun hh => hii hh.symm)]
            exact hs i (List.mem_cons_of_mem i0 hi)
        exact (IH2 s hcond).trans (List.getElem?_set_ne (fun hh => hs0 hh.symm))
      · -- processed positions
        intro hnd hinj i hi a hai
        rcases List.nodup_cons.mp hnd with ⟨hni0, hndr⟩
        rcases List.mem_cons.mp hi with hieq | hir
        · subst hieq
          have haa : a = a0 := Option.some.inj (hai.symm.trans ha0)
          subst haa
          refine ⟨r0, hr0, ?_, ?_⟩
          · exact (IH1 i hni0).trans hP2
          · have hcond : ∀ i2 ∈ rest,
                reactTarget ({ product with atoms := (product.atoms.set i
                  ({ a with atomMapNum := a.oldMapno.getD 1 })) }) i2 ≠ some r0 := by
              intro i2 hi2 hcontra
              have hne : i2 ≠ i := fun hh => hni0 (hh ▸ hi2)
              rw [reactTarget_set_ne product i i2 _ (fun hh => hne hh.symm)]
                at hcontra
              have heq : reactTarget product i2 = reactTarget product i := by
                rw [hcontra, htarget0]
              exact hne (hinj i2 (List.mem_cons_of_mem i hi2) i
                (List.mem_cons_self i rest) heq)
            have h5 := (IH2 r0 hcond).trans hE2
            rw [h5]
            rfl
        · have hne : i ≠ i0 := fun hh => hni0 (hh ▸ hir)
          have hP : (product.atoms.set i0
              ({ a0 with atomMapNum := a0.oldMapno.getD 1 }))[i]? =
              product.atoms[i]? :=
            List.getElem?_set_ne (fun hh => hne hh.symm)
          have hinj1 : ReactInjOn ({ product with atoms := (product.atoms.set i0
              ({ a0 with atomMapNum := a0.oldMapno.getD 1 })) }) rest := by
            intro i1 h1 i2 h2 heq
            have hne1 : i1 ≠ i0 := fun hh => hni0 (hh ▸ h1)
            have hne2 : i2 ≠ i0 := fun hh => hni0 (hh ▸ h2)
            rw [reactTarget_set_ne product i0 i1 _ (fun hh => hne1 hh.symm),
              reactTarget_set_ne product i0 i2 _ (fun hh => hne2 hh.symm)] at heq
            exact hinj i1 (List.mem_cons_of_mem i0 h1) i2
              (List.mem_cons_of_mem i0 h2) heq
          exact IH3 hndr hinj1 i hir a (hP.trans hai)

/-- C2 amended: each annotated site receives as label the product atom's
reaction mapping number (`old_mapno`) when present and `1` otherwise — not a
renumbering `1..k` — and the label is mirrored onto the educt atom at the
product atom's `react_atom_idx`, provided the selected sites are distinct
and write to distinct educt atoms. -/
theorem annotate_assigns_old_mapno_labels (strict_soms : Bool) (educt : EMol)
    (product : PMol) (e1 : EMol) (p1 : PMol)
    (h : annotate_educt_and_product_inplace strict_soms educt product
      = some (e1, p1))
    (hnd : (somIndices strict_soms educt product).Nodup)
    (hinj : ReactInjOn product (somIndices strict_soms educt product)) :
    ∀ i ∈ somIndices strict_soms educt product, ∀ a : PAtom,
      product.atoms[i]? = some a →
      ∃ r, a.reactAtomIdx = some r ∧
        p1.atoms[i]? = some { a with atomMapNum := a.oldMapno.getD 1 } ∧
        (e1.atoms[r]?).map EAtom.atomMapNum = some (a.oldMapno.getD 1) :=
  (annotateLoop_spec (somIndices strict_soms educt product) educt product e1 p1
    h).2.2 hnd hinj

/-- Witness educt for C2 (amended): two unlabeled atoms. -/
def eductC2w : EMol := { atoms := [⟨0⟩, ⟨0⟩], dist := fun _ _ => 0 }

/-- Witness product for C2 (amended): two mapped non-hydrogen atoms with
map numbers 2 and 7. -/
def productC2w : PMol :=
  { atoms := [⟨6, some 0, some 2, 0⟩, ⟨6, some 1, some 7, 0⟩],
    dist := fun _ _ => 0 }

instance (product : PMol) (idxs : List Nat) : Decidable (ReactInjOn product idxs) :=
  inferInstanceAs (Decidable (∀ i1 ∈ idxs, ∀ i2 ∈ idxs,
    reactTarget product i1 = reactTarget product i2 → i1 = i2))

theorem annotate_assigns_old_mapno_labels_witness :
    (annotate_educt_and_product_inplace false eductC2w productC2w).isSome ∧
    ∃ r, (⟨6, some 0, some 2, 0⟩ : PAtom).reactAtomIdx = some r ∧
      ∃ e1 p1, annotate_educt_and_product_inplace false eductC2w productC2w
          = some (e1, p1) ∧
        p1.atoms[0]? = some ⟨6, some 0, some 2, 2⟩ ∧
        (e1.atoms[r]?).map EAtom.atomMapNum = some 2 := by
  have hsome : (annotate_educt_and_product_inplace false eductC2w
      productC2w).isSome = true := by decide
  obtain ⟨st, hh⟩ := Option.isSome_iff_exists.mp hsome
  obtain ⟨r, hr, hp, he⟩ := annotate_assigns_old_mapno_labels false eductC2w
    productC2w st.1 st.2 (by rw [hh]) (by decide) (by decide) 0 (by decide)
    ⟨6, some 0, some 2, 0⟩ (by decide)
  exact ⟨by rw [hh]; rfl, r, hr, st.1, st.2, by rw [hh], hp, he⟩

/-- Counterexample educt for C2. -/
def eductC2 : EMol := { atoms := [⟨0⟩], dist := fun _ _ => 0 }

/-- Counterexample product for C2: a single mapped atom whose `old_mapno`
is 3. -/
def productC2 : PMol :=
  { atoms := [⟨6, some 0, some 3, 0⟩], dist := fun _ _ => 0 }

/-- C2 counterexample: a reaction annotated with exactly one site whose
assigned label is 3 on both copies, not the increasing sequence starting at
1 the claim requires. -/
theorem annotate_labels_counterexample :
    (somIndices false eductC2 productC2).length = 1 ∧
    (annotate_educt_and_product_inplace false eductC2 productC2).map
        (fun st => (st.1.atoms.map EAtom.atomMapNum,
          st.2.atoms.map PAtom.atomMapNum))
      = some ([3], [3]) ∧
    ([(3 : Nat)], [(3 : Nat)]) ≠ ([1], [1]) := by decide

/-! ### Scores as Python floats (`prediction.py`)

A score is either a rational number or NaN (`float("nan")`), modelled as
`Option ℚ` with `none` for NaN.  The only NaN the scoring code itself
produces is the max-over-empty case; the model provider returns class
probabilities, which are plain numbers. -/

abbrev Score := Option ℚ

/-- Python float `<` on scores: any comparison involving NaN is `False`. -/
def scoreLt : Score → Score → Bool
  | some a, some b => decide (a < b)
  | _, _ => false

/-- `GLORYxR._get_prediction_score`: weight the model's positive-class
probability by the rule priority (`common → ×1.0`, `uncommon → ×0.2`,
anything else raises `ValueError`). -/
def _get_prediction_score {Descr : Type} (predictProba : String → Descr → ℚ)
    (descriptors : Descr) (priority : String) (subset : String) :
    Except String ℚ :=
  if priority = "common" then
    Except.ok (predictProba subset descriptors * 1)
  else if priority = "uncommon" then
    Except.ok (predictProba subset descriptors * (1 / 5))
  else
    Except.error ("Invalid priority: " ++ priority)

/-! ### `utils.extract_smiles_for_soms` -/

/-- The dict comprehension `mapno_to_idx`: map number of each labelled atom
to its index (later duplicates of a map number overwrite earlier ones). -/
def mapnoToIdx (atoms : List EAtom) : List (Nat × Nat) :=
  atoms.enum.foldl
    (fun d p => if p.2.atomMapNum ≠ 0 then dictInsert d p.2.atomMapNum p.1 else d)
    []

/-- Insertion into a sorted list, for Python `sorted`. -/
def insertSorted (n : Nat) : List Nat → List Nat
  | [] => [n]
  | m :: l => if n ≤ m then n :: m :: l else m :: insertSorted n l

/-- Python `sorted` over the dict keys. -/
def sortedKeys (d : List (Nat × Nat)) : List Nat :=
  (dictKeys d).foldr insertSorted []

/-- A copy of the educt in which every atom except the one at `idx` has its
map number cleared. -/
def singleSiteView (atoms : List EAtom) (idx : Nat) : List EAtom :=
  atoms.enum.map (fun p => if idx ≠ p.1 then { p.2 with atomMapNum := 0 } else p.2)

/-- `extract_smiles_for_soms`: one single-site view per label present on
the educt, in ascending label order, rendered by the external canonical
SMILES writer `canonE`. -/
def extract_smiles_for_soms (canonE : List EAtom → String)
    (atoms : List EAtom) : List String :=
  ((sortedKeys (mapnoToIdx atoms)).filterMap
    (fun mapno => (dictFind (mapnoToIdx atoms) mapno).map
      (fun idx => singleSiteView atoms idx))).map canonE

/-- Python `max` over a non-empty list of floats without NaN: keeps the
first maximal element. -/
def pyMax (x : ℚ) (xs : List ℚ) : ℚ :=
  xs.foldl (fun a b => if a < b then b else a) x

/-- `GLORYxR._generate_predictions`: score every extracted site view and
return the maximum, or NaN when no site is labelled. -/
def _generate_predictions {Descr : Type} (canonE : List EAtom → String)
    (transform_one : String → Descr) (predictProba : String → Descr → ℚ)
    (marked_educt : List EAtom) (priority subset : String) :
    Except String Score :=
  match ((extract_smiles_for_soms canonE marked_educt).map transform_one).mapM
      (fun d => _get_prediction_score predictProba d priority subset) with
  | Except.error e => Except.error e
  | Except.ok [] => Except.ok none
  | Except.ok (x :: xs) => Except.ok (some (pyMax x xs))

/-- The per-site scores computed by `_generate_predictions` when the
priority is valid. -/
def siteScores {Descr : Type} (canonE : List EAtom → String)
    (transform_one : String → Descr) (predictProba : String → Descr → ℚ)
    (marked_educt : List EAtom) (priority subset : String) : List ℚ :=
  ((extract_smiles_for_soms canonE marked_educt).map transform_one).map
    (fun d => predictProba subset d * (if priority = "common" then 1 else 1 / 5))

theorem mapM_ok_of_all_ok {α β : Type} (f : α → Except String β) (g : α → β)
    (l : List α) (h : ∀ x ∈ l, f x = Except.ok (g x)) :
    l.mapM f = Except.ok (l.map g) := by
  induction l with
  | nil => rfl
  | cons a t ih =>
    rw [List.mapM_cons, h a (List.mem_cons_self a t),
      ih (fun x hx => h x (List.mem_cons_of_mem a hx))]
    rfl

theorem pyMax_spec (x : ℚ) (xs : List ℚ) :
    pyMax x xs ∈ x :: xs ∧ ∀ y ∈ x :: xs, y ≤ pyMax x xs := by
  induction xs generalizing x with
  | nil =>
    refine ⟨List.mem_cons_self x [], ?_⟩
    intro y hy
    rcases List.mem_cons.mp hy with h | h
    · exact le_of_eq h
    · cases h
  | cons b t ih =>
    have hfold : pyMax x (b :: t) = pyMax (if x < b then b else x) t := rfl
    obtain ⟨hm, hb⟩ := ih (if x < b then b else x)
    have hz : (if x < b then b else x) ≤ pyMax (if x < b then b else x) t :=
      hb _ (List.mem_cons_self _ t)
    constructor
    · rw [hfold]
      rcases List.mem_cons.mp hm with h | h
      · rw [h]
        by_cases hxb : x < b
        · rw [if_pos hxb]
          exact List.mem_cons_of_mem x (List.mem_cons_self b t)
        · rw [if_neg hxb]
          exact List.mem_cons_self x (b :: t)
      · exact List.mem_cons_of_mem x (List.mem_cons_of_mem b h)
    · intro y hy
      rw [hfold]
      rcases List.mem_cons.mp hy with h | h
      · rw [h]
        refine le_trans ?_ hz
        by_cases hxb : x < b
        · rw [if_pos hxb]
          exact le_of_lt hxb
        · rw [if_neg hxb]
      · rcases List.mem_cons.mp h with h2 | h2
        · rw [h2]
          refine le_trans ?_ hz
          by_cases hxb : x < b
          · rw [if_pos hxb]
          · rw [if_neg hxb]
            exact le_of_not_lt hxb
        · exact hb y (List.mem_cons_of_mem _ h2)

/-- C9: for a valid priority, the reaction-level score is `NaN` when the
extracted site list is empty, and otherwise `some` of the maximum of the
per-site scores. -/
theorem generate_predictions_max_or_nan {Descr : Type}
    (canonE : List EAtom → String) (transform_one : String → Descr)
    (predictProba : String → Descr → ℚ) (marked_educt : List EAtom)
    (priority subset : String)
    (hp : priority = "common" ∨ priority = "uncommon") :
    (extract_smiles_for_soms canonE marked_educt = [] →
      _generate_predictions canonE transform_one predictProba marked_educt
        priority subset = Except.ok none) ∧
    (extract_smiles_for_soms canonE marked_educt ≠ [] →
      ∃ r, _generate_predictions canonE transform_one predictProba marked_educt
          priority subset = Except.ok (some r) ∧
        r ∈ siteScores canonE transform_one predictProba marked_educt
            priority subset ∧
        ∀ y ∈ siteScores canonE transform_one predictProba marked_educt
            priority subset, y ≤ r) := by
  have hstep : ∀ d : Descr,
      _get_prediction_score predictProba d priority subset =
        Except.ok (predictProba subset d *
          (if priority = "common" then 1 else 1 / 5)) := by
    intro d
    rcases hp with hp | hp
    · rw [hp]
      unfold _get_prediction_score
      rw [if_pos rfl, if_pos rfl]
    · rw [hp]
      unfold _get_prediction_score
      rw [if_neg (by decide), if_pos rfl, if_neg (by decide)]
  have hmapm := mapM_ok_of_all_ok
    (fun d => _get_prediction_score predictProba d priority subset)
    (fun d => predictProba subset d * (if priority = "common" then 1 else 1 / 5))
    ((extract_smiles_for_soms canonE marked_educt).map transform_one)
    (fun d _ => hstep d)
  constructor
  · intro hempty
    unfold _generate_predictions
    rw [hmapm]
    have h2 : (extract_smiles_for_soms canonE marked_educt).map transform_one
        = [] := by rw [hempty]; rfl
    rw [h2]
    rfl
  · intro hne
    unfold _generate_predictions
    rw [hmapm]
    cases hs : ((extract_smiles_for_soms canonE marked_educt).map
        transform_one).map
        (fun d => predictProba subset d *
          (if priority = "common" then 1 else 1 / 5)) with
    | nil =>
      exfalso
      apply hne
      have := List.map_eq_nil.mp (List.map_eq_nil.mp hs)
      exact this
    | cons x xs =>
      refine ⟨pyMax x xs, rfl, ?_, ?_⟩
      · have := (pyMax_spec x xs).1
        unfold siteScores
        rw [hs]
        exact this
      · intro y hy
        unfold siteScores at hy
        rw [hs] at hy
        exact (pyMax_spec x xs).2 y hy

/-- Witness educt for C9: a single atom labelled 5. -/
def eductC9 : List EAtom := [⟨5⟩]

theorem generate_predictions_witness :
    extract_smiles_for_soms (fun _ => "x") eductC9 ≠ [] ∧
    ∃ r, _generate_predictions (fun _ => "x") (fun _ => (2 : ℚ))
        (fun _ d => d) eductC9 "common" "cyp" = Except.ok (some r) ∧
      r ∈ siteScores (fun _ => "x") (fun _ => (2 : ℚ)) (fun _ d => d) eductC9
          "common" "cyp" ∧
      ∀ y ∈ siteScores (fun _ => "x") (fun _ => (2 : ℚ)) (fun _ d => d) eductC9
          "common" "cyp", y ≤ r :=
  ⟨by decide,
   (generate_predictions_max_or_nan (fun _ => "x") (fun _ => (2 : ℚ))
     (fun _ d => d) eductC9 "common" "cyp" (Or.inl rfl)).2 (by decide)⟩

/-- C8: priority weighting multiplies the model probability by 1 for
`common` and by 1/5 (= 0.2) for `uncommon`; a raw probability of 1/2 yields
1/2 and 1/10 respectively, and any other priority raises `ValueError`. -/
theorem priority_weighting {Descr : Type} (predictProba : String → Descr → ℚ)
    (descriptors : Descr) (subset : String) :
    (_get_prediction_score predictProba descriptors "common" subset
        = Except.ok (predictProba subset descriptors) ∧
     _get_prediction_score predictProba descriptors "uncommon" subset
        = Except.ok (predictProba subset descriptors * (1 / 5))) ∧
    (predictProba subset descriptors = 1 / 2 →
      _get_prediction_score predictProba descriptors "common" subset
          = Except.ok (1 / 2) ∧
      _get_prediction_score predictProba descriptors "uncommon" subset
          = Except.ok (1 / 10)) ∧
    ∀ s, s ≠ "common" → s ≠ "uncommon" →
      _get_prediction_score predictProba descriptors s subset
        = Except.error ("Invalid priority: " ++ s) := by
  refine ⟨⟨?_, ?_⟩, ?_, ?_⟩
  · unfold _get_prediction_score
    rw [if_pos rfl, mul_one]
  · unfold _get_prediction_score
    rw [if_neg (by decide), if_pos rfl]
  · intro hhalf
    constructor
    · unfold _get_prediction_score
      rw [if_pos rfl, hhalf, mul_one]
    · unfold _get_prediction_score
      rw [if_neg (by decide), if_pos rfl, hhalf]
      norm_num
  · intro s hc hu
    unfold _get_prediction_score
    rw [if_neg hc, if_neg hu]

theorem priority_weighting_witness :
    _get_prediction_score (fun (_ : String) (_ : Unit) => (1 / 2 : ℚ)) ()
        "common" "s" = Except.ok (1 / 2) ∧
    _get_prediction_score (fun (_ : String) (_ : Unit) => (1 / 2 : ℚ)) ()
        "uncommon" "s" = Except.ok (1 / 10) ∧
    _get_prediction_score (fun (_ : String) (_ : Unit) => (1 / 2 : ℚ)) ()
        "bogus" "s" = Except.error ("Invalid priority: " ++ "bogus") := by
  have h := priority_weighting (fun (_ : String) (_ : Unit) => (1 / 2 : ℚ)) () "s"
  exact ⟨(h.2.1 rfl).1, (h.2.1 rfl).2, h.2.2 "bogus" (by decide) (by decide)⟩

/-! ### `prediction.py`: `Prediction`, deduplication and `predict_one` -/

/-- A concrete reaction as consumed by `prediction.py`: the stored educt and
product molecules plus the `_Name`, `_Priority` and `_Subset` properties
(absent properties modelled as `none`). -/
structure CReaction where
  educt : List EAtom
  product : List PAtom
  name : Option String
  priority : Option String
  subset : Option String
deriving DecidableEq

/-- The `Prediction` dataclass. -/
structure Prediction where
  concrete_reaction : CReaction
  score : Score
deriving DecidableEq

/-- Modelled from the spec: `mol_without_mappings` is imported by
`prediction.py` from `gloryxr.utils` but is absent from the available
sources; the spec groups products by canonical identity with "labels
stripped before computing identity", so this returns a copy of the molecule
with every atom's map number cleared. -/
def mol_without_mappings (atoms : List PAtom) : List PAtom :=
  atoms.map (fun a => { a with atomMapNum := 0 })

/-- `Prediction.get_product_smiles` with `clean=True`: canonical SMILES of
the label-stripped product, via the external writer `canonP`. -/
def get_product_smiles (canonP : List PAtom → String) (p : Prediction) : String :=
  canonP (mol_without_mappings p.concrete_reaction.product)

/-- `GetProp`: reading an absent property raises `KeyError`. -/
def getProp (v : Option String) : Except String String :=
  match v with
  | some s => Except.ok s
  | none => Except.error "KeyError"

/-- `GetNumHeavyAtoms`: atoms that are not hydrogen. -/
def numHeavyAtoms (atoms : List PAtom) : Nat :=
  (atoms.filter (fun a => a.atomicNum ≠ 1)).length

/-- One entry of the prediction list comprehension in `predict_one`. -/
def mkPrediction {Descr : Type} (canonE : List EAtom → String)
    (transform_one : String → Descr) (predictProba : String → Descr → ℚ)
    (cr : CReaction) : Except String Prediction :=
  match getProp cr.priority with
  | Except.error e => Except.error e
  | Except.ok priority =>
    match getProp cr.subset with
    | Except.error e => Except.error e
    | Except.ok subset =>
      match _generate_predictions canonE transform_one predictProba cr.educt
          priority subset with
      | Except.error e => Except.error e
      | Except.ok score => Except.ok ⟨cr, score⟩

/-- One step of the deduplication loop in `predict_one`: keep the stored
prediction unless the key is new or the new prediction's score is strictly
greater (Python float `<`, false on NaN). -/
def dedupStep (canonP : List PAtom → String)
    (d : List (String × Prediction)) (pred : Prediction) :
    List (String × Prediction) :=
  match dictFind d (get_product_smiles canonP pred) with
  | none => dictInsert d (get_product_smiles canonP pred) pred
  | some old =>
    if scoreLt old.score pred.score then
      dictInsert d (get_product_smiles canonP pred) pred
    else d

/-- The deduplication pass of `predict_one`
(`list(deduplicated.values())`). -/
def dedupPredictions (canonP : List PAtom → String)
    (preds : List Prediction) : List Prediction :=
  (preds.foldl (dedupStep canonP) []).map (fun p => p.2)

/-- `GLORYxR.predict_one`, from the reactor output on: score every concrete
reaction, deduplicate by clean product SMILES keeping the higher score, and
drop products with fewer than 3 heavy atoms. -/
def predict_one {Descr : Type} (canonE : List EAtom → String)
    (canonP : List PAtom → String) (transform_one : String → Descr)
    (predictProba : String → Descr → ℚ) (reactor_output : List CReaction) :
    Except String (List Prediction) :=
  match reactor_output.mapM (mkPrediction canonE transform_one predictProba) with
  | Except.error e => Except.error e
  | Except.ok predictions =>
    Except.ok ((dedupPredictions canonP predictions).filter
      (fun pred => 3 ≤ numHeavyAtoms pred.concrete_reaction.product))

/-! ### Claim C5: NaN-scored predictions -/

theorem mapnoToIdx_eq_nil (atoms : List EAtom)
    (h : ∀ a ∈ atoms, a.atomMapNum = 0) : mapnoToIdx atoms = [] := by
  unfold mapnoToIdx
  have main : ∀ (l : List (Nat × EAtom)) (d : List (Nat × Nat)),
      (∀ q ∈ l, q.2.atomMapNum = 0) →
      l.foldl (fun d p =>
        if p.2.atomMapNum ≠ 0 then dictInsert d p.2.atomMapNum p.1 else d) d
        = d := by
    intro l
    induction l with
    | nil => intro d _; rfl
    | cons q t ih =>
      intro d hl
      rw [List.foldl_cons]
      have hq : q.2.atomMapNum = 0 := hl q (List.mem_cons_self q t)
      rw [if_neg (by rw [hq]; exact fun hh => hh rfl)]
      exact ih d (fun q2 hq2 => hl q2 (List.mem_cons_of_mem q hq2))
  apply main
  intro q hq
  have hget := (mem_enum_iff2 atoms q).mp hq
  obtain ⟨hlt, hel⟩ := List.getElem?_eq_some.mp hget
  exact hel ▸ h _ (List.getElem_mem hlt)

theorem generate_predictions_nan_of_unlabeled {Descr : Type}
    (canonE : List EAtom → String) (transform_one : String → Descr)
    (predictProba : String → Descr → ℚ) (atoms : List EAtom)
    (h0 : ∀ a ∈ atoms, a.atomMapNum = 0) (priority subset : String) :
    _generate_predictions canonE transform_one predictProba atoms priority
      subset = Except.ok none := by
  have hext : extract_smiles_for_soms canonE atoms = [] := by
    unfold extract_smiles_for_soms
    rw [mapnoToIdx_eq_nil atoms h0]
    rfl
  unfold _generate_predictions
  rw [hext]
  rfl

/-- C5 amended: a ConcreteReaction whose educt carries zero site labels
yields a NaN-scored prediction without raising; the aggregator does NOT
exclude it on account of its NaN score — with a product of at least 3 heavy
atoms it appears in the final output. -/
theorem nan_prediction_not_excluded {Descr : Type}
    (canonE : List EAtom → String) (canonP : List PAtom → String)
    (transform_one : String → Descr) (predictProba : String → Descr → ℚ)
    (cr : CReaction) (pr sb : String)
    (hpr : cr.priority = some pr) (hsb : cr.subset = some sb)
    (hlab : ∀ a ∈ cr.educt, a.atomMapNum = 0)
    (hheavy : 3 ≤ numHeavyAtoms cr.product) :
    mkPrediction canonE transform_one predictProba cr = Except.ok ⟨cr, none⟩ ∧
    predict_one canonE canonP transform_one predictProba [cr] =
      Except.ok [⟨cr, none⟩] := by
  have hmk : mkPrediction canonE transform_one predictProba cr
      = Except.ok ⟨cr, none⟩ := by
    unfold mkPrediction
    rw [hpr, hsb]
    dsimp only [getProp]
    rw [generate_predictions_nan_of_unlabeled canonE transform_one predictProba
      cr.educt hlab pr sb]
  refine ⟨hmk, ?_⟩
  have hmapm : [cr].mapM (mkPrediction canonE transform_one predictProba)
      = Except.ok [⟨cr, none⟩] := by
    rw [List.mapM_cons, hmk]
    rfl
  unfold predict_one
  rw [hmapm]
  have hfilter : (dedupPredictions canonP [⟨cr, none⟩]).filter
      (fun pred => 3 ≤ numHeavyAtoms pred.concrete_reaction.product)
      = [⟨cr, none⟩] := by
    have hd : dedupPredictions canonP [(⟨cr, none⟩ : Prediction)]
        = [⟨cr, none⟩] := rfl
    rw [hd, List.filter_cons, if_pos (decide_eq_true hheavy)]
    rfl
  exact congrArg Except.ok hfilter

/-- Counterexample reaction for C5: unlabeled educt, 3-heavy-atom product. -/
def crC5 : CReaction :=
  { educt := [⟨0⟩],
    product := [⟨6, none, none, 0⟩, ⟨6, none, none, 0⟩, ⟨8, none, none, 0⟩],
    name := some "r", priority := some "common", subset := some "s" }

/-- C5 counterexample: the NaN-scored prediction of a zero-label educt is
present in the aggregator's final output, not excluded from it. -/
theorem nan_prediction_in_output_counterexample :
    (predict_one (fun _ => "e") (fun _ => "p") (fun _ => ())
        (fun _ _ => (0 : ℚ)) [crC5]).toOption = some [⟨crC5, none⟩] ∧
    (⟨crC5, none⟩ : Prediction).score = none := by decide

theorem nan_prediction_witness :
    mkPrediction (fun _ => "e") (fun _ => ()) (fun _ _ => (0 : ℚ)) crC5
      = Except.ok ⟨crC5, none⟩ ∧
    predict_one (fun _ => "e") (fun _ => "p") (fun _ => ())
        (fun _ _ => (0 : ℚ)) [crC5] = Except.ok [⟨crC5, none⟩] :=
  nan_prediction_not_excluded (fun _ => "e") (fun _ => "p") (fun _ => ())
    (fun _ _ => (0 : ℚ)) crC5 "common" "s" rfl rfl (by decide) (by decide)

/-! ### Claim C3: deduplication keeps the first maximum per product group -/

/-- The predictions sharing a given clean-product identity. -/
def group (canonP : List PAtom → String) (preds : List Prediction)
    (k : String) : List Prediction :=
  preds.filter (fun p => get_product_smiles canonP p = k)

/-- A prediction not strictly beaten by any member of `l`. -/
def good (l : List Prediction) (p : Prediction) : Bool :=
  l.all (fun q => ! scoreLt p.score q.score)

/-- Modelled from the spec: "within each group, keep only the prediction
with the highest score (ties: keep first encountered)" — the first element
of the group whose score no other element strictly exceeds. -/
def specBest (l : List Prediction) : Option Prediction :=
  l.find? (good l)

/-- The replacement rule of the dedup loop, per dictionary entry. -/
def updBest (o : Option Prediction) (p : Prediction) : Option Prediction :=
  match o with
  | none => some p
  | some old => if scoreLt old.score p.score then some p else some old

/-- Binary version of the dedup comparison. -/
def pickBest (a b : Prediction) : Prediction :=
  if scoreLt a.score b.score then b else a

theorem scoreLt_irrefl (s : Score) : scoreLt s s = false := by
  cases s with
  | none => rfl
  | some a => simp [scoreLt]

theorem scoreLt_eq_true_iff {s t : Score} :
    scoreLt s t = true ↔ ∃ a b, s = some a ∧ t = some b ∧ a < b := by
  cases s with
  | none => simp [scoreLt]
  | some a =>
    cases t with
    | none => simp [scoreLt]
    | some b => simp [scoreLt]

theorem scoreLt_trans {a b c : Score} (h1 : scoreLt a b = true)
    (h2 : scoreLt b c = true) : scoreLt a c = true := by
  rcases scoreLt_eq_true_iff.mp h1 with ⟨x, y, hx, hy, hxy⟩
  rcases scoreLt_eq_true_iff.mp h2 with ⟨y2, z, hy2, hz, hyz⟩
  rw [hy] at hy2
  injection hy2 with hyy
  exact scoreLt_eq_true_iff.mpr ⟨x, z, hx, hz, lt_trans hxy (hyy ▸ hyz)⟩

theorem scoreLt_false_le {a b : ℚ} {s t : Score} (hs : s = some a)
    (ht : t = some b) (h : scoreLt s t = false) : b ≤ a := by
  rw [hs, ht] at h
  simp only [scoreLt, decide_eq_false_iff_not] at h
  exact le_of_not_lt h

theorem find?_congr_mem {α : Type} (p q : α → Bool) (l : List α)
    (h : ∀ a ∈ l, p a = q a) : l.find? p = l.find? q := by
  induction l with
  | nil => rfl
  | cons a t ih =>
    rw [List.find?_cons, List.find?_cons, h a (List.mem_cons_self a t)]
    cases hqa : q a with
    | true => rfl
    | false => exact ih (fun x hx => h x (List.mem_cons_of_mem a hx))

theorem specBest_cons_cons (acc y : Prediction) (ys : List Prediction)
    (h : ∀ p ∈ acc :: y :: ys, p.score ≠ none) :
    specBest (acc :: y :: ys) = specBest (pickBest acc y :: ys) := by
  obtain ⟨va, hva⟩ := Option.ne_none_iff_exists'.mp
    (h acc (List.mem_cons_self acc (y :: ys)))
  obtain ⟨vy, hvy⟩ := Option.ne_none_iff_exists'.mp
    (h y (List.mem_cons_of_mem acc (List.mem_cons_self y ys)))
  cases hlt : scoreLt acc.score y.score with
  | true =>
    have hpick : pickBest acc y = y := by
      unfold pickBest
      rw [if_pos hlt]
    rw [hpick]
    unfold specBest
    rw [List.find?_cons]
    have hga : good (acc :: y :: ys) acc = false := by
      unfold good
      rw [List.all_cons, List.all_cons, hlt]
      simp
    rw [hga]
    apply find?_congr_mem
    intro p hp
    unfold good
    rw [List.all_cons]
    cases hg : (y :: ys).all (fun q => ! scoreLt p.score q.score) with
    | false => simp
    | true =>
      have hpy : scoreLt p.score y.score = false := by
        have h2 := List.all_eq_true.mp hg y (List.mem_cons_self y ys)
        simpa using h2
      have hpa : scoreLt p.score acc.score = false := by
        cases hpa2 : scoreLt p.score acc.score with
        | false => rfl
        | true =>
          have h3 := scoreLt_trans hpa2 hlt
          rw [hpy] at h3
          exact Bool.noConfusion h3
      rw [hpa]
      simp
  | false =>
    have hpick : pickBest acc y = acc := by
      unfold pickBest
      rw [hlt]
      rfl
    rw [hpick]
    have hgeq : good (acc :: y :: ys) acc = good (acc :: ys) acc := by
      unfold good
      rw [List.all_cons, List.all_cons, List.all_cons, hlt]
      simp
    cases hspl : good (acc :: ys) acc with
    | true =>
      have hL : specBest (acc :: y :: ys) = some acc := by
        unfold specBest
        rw [List.find?_cons, hgeq, hspl]
      have hR : specBest (acc :: ys) = some acc := by
        unfold specBest
        rw [List.find?_cons, hspl]
      rw [hL, hR]
    | false =>
      have hex : ∃ q ∈ acc :: ys, scoreLt acc.score q.score = true := by
        by_contra hno
        push_neg at hno
        have hgt : good (acc :: ys) acc = true := by
          unfold good
          apply List.all_eq_true.mpr
          intro q hq
          have h4 : scoreLt acc.score q.score = false :=
            Bool.eq_false_iff.mpr (hno q hq)
          rw [h4]
          rfl
        rw [hgt] at hspl
        exact Bool.noConfusion hspl
      obtain ⟨q, hq, hltq⟩ := hex
      have hqys : q ∈ ys := by
        rcases List.mem_cons.mp hq with h1 | h1
        · exfalso
          rw [h1, scoreLt_irrefl] at hltq
          exact Bool.noConfusion hltq
        · exact h1
      rcases scoreLt_eq_true_iff.mp hltq with ⟨va2, vq, hva2, hvq, haq⟩
      have hvaa : va2 = va := by
        rw [hva] at hva2
        injection hva2 with h5
        exact h5.symm
      have hyle : vy ≤ va := scoreLt_false_le hva hvy hlt
      have hyq : scoreLt y.score q.score = true :=
        scoreLt_eq_true_iff.mpr ⟨vy, vq, hvy, hvq,
          lt_of_le_of_lt hyle (hvaa ▸ haq)⟩
      have hgy : good (acc :: y :: ys) y = false := by
        apply Bool.eq_false_iff.mpr
        intro htrue
        have h6 := List.all_eq_true.mp htrue q
          (List.mem_cons_of_mem acc (List.mem_cons_of_mem y hqys))
        rw [hyq] at h6
        exact Bool.noConfusion h6
      have hL : specBest (acc :: y :: ys)
          = List.find? (good (acc :: y :: ys)) ys := by
        unfold specBest
        rw [List.find?_cons, hgeq, hspl, List.find?_cons, hgy]
      have hR : specBest (acc :: ys) = List.find? (good (acc :: ys)) ys := by
        unfold specBest
        rw [List.find?_cons, hspl]
      rw [hL, hR]
      apply find?_congr_mem
      intro p hp
      obtain ⟨vp, hvp⟩ := Option.ne_none_iff_exists'.mp
        (h p (List.mem_cons_of_mem acc (List.mem_cons_of_mem y hp)))
      unfold good
      rw [List.all_cons, List.all_cons, List.all_cons]
      cases hc1 : scoreLt p.score acc.score with
      | true => simp [hc1]
      | false =>
        have hale : va ≤ vp := scoreLt_false_le hvp hva hc1
        have hpy : scoreLt p.score y.score = false := by
          cases hc2 : scoreLt p.score y.score with
          | false => rfl
          | true =>
            rcases scoreLt_eq_true_iff.mp hc2 with ⟨vp2, vy2, hvp2, hvy2, hlt2⟩
            rw [hvp] at hvp2
            rw [hvy] at hvy2
            injection hvp2 with h7
            injection hvy2 with h8
            rw [← h7, ← h8] at hlt2
            exact absurd hlt2 (not_lt_of_le (le_trans hyle hale))
        rw [hpy]
        simp

theorem pickBest_fold_eq_specBest (xs : List Prediction) :
    ∀ x, (∀ p ∈ x :: xs, p.score ≠ none) →
      some (xs.foldl pickBest x) = specBest (x :: xs) := by
  induction xs with
  | nil =>
    intro x _
    unfold specBest
    rw [List.find?_cons]
    have hg : good [x] x = true := by
      unfold good
      rw [List.all_cons, scoreLt_irrefl]
      rfl
    rw [hg]
    rfl
  | cons y ys ih =>
    intro x hx
    have hmem : pickBest x y = x ∨ pickBest x y = y := by
      unfold pickBest
      cases hc : scoreLt x.score y.score with
      | true => right; rfl
      | false => left; rfl
    have hxy : ∀ p ∈ pickBest x y :: ys, p.score ≠ none := by
      intro p hp
      rcases List.mem_cons.mp hp with h1 | h1
      · rcases hmem with h2 | h2
        · exact (h1.trans h2) ▸ hx x (List.mem_cons_self x (y :: ys))
        · exact (h1.trans h2) ▸ hx y
            (List.mem_cons_of_mem x (List.mem_cons_self y ys))
      · exact hx p (List.mem_cons_of_mem x (List.mem_cons_of_mem y h1))
    rw [List.foldl_cons, ih (pickBest x y) hxy]
    exact (specBest_cons_cons x y ys hx).symm

theorem foldl_updBest_some (l : List Prediction) :
    ∀ a, l.foldl updBest (some a) = some (l.foldl pickBest a) := by
  induction l with
  | nil => intro a; rfl
  | cons b t ih =>
    intro a
    rw [List.foldl_cons, List.foldl_cons]
    have hstep : updBest (some a) b = some (pickBest a b) := by
      show (if scoreLt a.score b.score then some b else some a)
        = some (pickBest a b)
      unfold pickBest
      cases hc : scoreLt a.score b.score with
      | true => rfl
      | false => rfl
    rw [hstep, ih]

theorem foldl_updBest_eq_specBest (l : List Prediction)
    (hl : ∀ p ∈ l, p.score ≠ none) :
    l.foldl updBest none = specBest l := by
  cases l with
  | nil => rfl
  | cons x xs =>
    rw [List.foldl_cons]
    have h1 : updBest none x = some x := rfl
    rw [h1, foldl_updBest_some]
    exact pickBest_fold_eq_specBest xs x hl

theorem dictFind_dedupStep (canonP : List PAtom → String)
    (d : List (String × Prediction)) (p : Prediction) (k : String) :
    dictFind (dedupStep canonP d p) k =
      if get_product_smiles canonP p = k then updBest (dictFind d k) p
      else dictFind d k := by
  unfold dedupStep
  cases hf : dictFind d (get_product_smiles canonP p) with
  | none =>
    show dictFind (dictInsert d (get_product_smiles canonP p) p) k
      = if get_product_smiles canonP p = k then updBest (dictFind d k) p
        else dictFind d k
    rw [dictFind_dictInsert]
    by_cases hk : k = get_product_smiles canonP p
    · rw [if_pos hk, if_pos hk.symm, hk, hf]
      rfl
    · rw [if_neg hk, if_neg (fun hh => hk hh.symm)]
  | some old =>
    show dictFind (if scoreLt old.score p.score = true then
        dictInsert d (get_product_smiles canonP p) p else d) k
      = if get_product_smiles canonP p = k then updBest (dictFind d k) p
        else dictFind d k
    by_cases hlt : scoreLt old.score p.score = true
    · rw [if_pos hlt, dictFind_dictInsert]
      by_cases hk : k = get_product_smiles canonP p
      · rw [if_pos hk, if_pos hk.symm, hk, hf]
        show some p
          = if scoreLt old.score p.score = true then some p else some old
        rw [if_pos hlt]
      · rw [if_neg hk, if_neg (fun hh => hk hh.symm)]
    · rw [if_neg hlt]
      by_cases hk : get_product_smiles canonP p = k
      · rw [if_pos hk, ← hk, hf]
        show some old
          = if scoreLt old.score p.score = true then some p else some old
        rw [if_neg hlt]
      · rw [if_neg hk]

theorem dedupFold_find (canonP : List PAtom → String) :
    ∀ (preds : List Prediction) (d0 : List (String × Prediction)) (k : String),
      dictFind (preds.foldl (dedupStep canonP) d0) k
        = (group canonP preds k).foldl updBest (dictFind d0 k) := by
  intro preds
  induction preds with
  | nil => intro d0 k; rfl
  | cons p rest ih =>
    intro d0 k
    rw [List.foldl_cons, ih]
    unfold group
    rw [List.filter_cons]
    by_cases hk : get_product_smiles canonP p = k
    · rw [if_pos (decide_eq_true hk), List.foldl_cons,
        dictFind_dedupStep canonP d0 p k, if_pos hk]
    · rw [if_neg (fun hh => hk (of_decide_eq_true hh)),
        dictFind_dedupStep canonP d0 p k, if_neg hk]

/-- Well-formedness of the dedup dictionary: every entry is stored under the
clean product SMILES of its prediction, and keys are unique. -/
def DictWF (canonP : List PAtom → String)
    (d : List (String × Prediction)) : Prop :=
  (∀ q ∈ d, q.1 = get_product_smiles canonP q.2) ∧ (dictKeys d).Nodup

theorem mem_dictKeys_dictInsert {α β : Type} [DecidableEq α]
    (d : List (α × β)) (k : α) (v : β) (x : α)
    (hx : x ∈ dictKeys (dictInsert d k v)) : x = k ∨ x ∈ dictKeys d := by
  unfold dictKeys at hx ⊢
  rcases List.mem_map.mp hx with ⟨q, hq, hqx⟩
  rcases mem_dictInsert d k v q hq with h1 | h1
  · left
    rw [← hqx, h1]
  · right
    exact List.mem_map.mpr ⟨q, h1, hqx⟩

theorem dictKeys_nodup_dictInsert {α β : Type} [DecidableEq α]
    (d : List (α × β)) (k : α) (v : β)
    (hd : (dictKeys d).Nodup) : (dictKeys (dictInsert d k v)).Nodup := by
  induction d with
  | nil => simp [dictInsert, dictKeys]
  | cons q rest ih =>
    rw [dictInsert]
    by_cases hq : q.1 = k
    · rw [if_pos hq]
      unfold dictKeys at hd ⊢
      rw [List.map_cons] at hd ⊢
      rw [List.nodup_cons] at hd ⊢
      exact ⟨hq ▸ hd.1, hd.2⟩
    · rw [if_neg hq]
      unfold dictKeys at hd ⊢
      rw [List.map_cons] at hd ⊢
      rw [List.nodup_cons] at hd ⊢
      refine ⟨?_, ih hd.2⟩
      intro hmem
      rcases mem_dictKeys_dictInsert rest k v q.1 hmem with h1 | h1
      · exact hq h1
      · exact hd.1 h1

theorem dedupStep_wf (canonP : List PAtom → String)
    (d : List (String × Prediction)) (p : Prediction)
    (hd : DictWF canonP d) : DictWF canonP (dedupStep canonP d p) := by
  have hins : DictWF canonP (dictInsert d (get_product_smiles canonP p) p) := by
    constructor
    · intro q hq
      rcases mem_dictInsert d (get_product_smiles canonP p) p q hq with h1 | h1
      · rw [h1]
      · exact hd.1 q h1
    · exact dictKeys_nodup_dictInsert d _ p hd.2
  unfold dedupStep
  cases hf : dictFind d (get_product_smiles canonP p) with
  | none => exact hins
  | some old =>
    show DictWF canonP (if scoreLt old.score p.score = true then
      dictInsert d (get_product_smiles canonP p) p else d)
    by_cases hlt : scoreLt old.score p.score = true
    · rw [if_pos hlt]
      exact hins
    · rw [if_neg hlt]
      exact hd

theorem dedupFold_wf (canonP : List PAtom → String) :
    ∀ (preds : List Prediction) (d0 : List (String × Prediction)),
      DictWF canonP d0 → DictWF canonP (preds.foldl (dedupStep canonP) d0) := by
  intro preds
  induction preds with
  | nil => intro d0 hd; exact hd
  | cons p rest ih =>
    intro d0 hd
    rw [List.foldl_cons]
    exact ih _ (dedupStep_wf canonP d0 p hd)

theorem mem_dedupStep_values (canonP : List PAtom → String)
    (d : List (String × Prediction)) (p : Prediction)
    (P : Prediction → Prop) (hd : ∀ q ∈ d, P q.2) (hp : P p) :
    ∀ q ∈ dedupStep canonP d p, P q.2 := by
  have hins : ∀ q ∈ dictInsert d (get_product_smiles canonP p) p, P q.2 := by
    intro q hq
    rcases mem_dictInsert d (get_product_smiles canonP p) p q hq with h1 | h1
    · rw [h1]
      exact hp
    · exact hd q h1
  intro q hq
  unfold dedupStep at hq
  cases hf : dictFind d (get_product_smiles canonP p) with
  | none =>
    rw [hf] at hq
    exact hins q hq
  | some old =>
    rw [hf] at hq
    have hq2 : q ∈ (if scoreLt old.score p.score = true then
        dictInsert d (get_product_smiles canonP p) p else d) := hq
    by_cases hlt : scoreLt old.score p.score = true
    · rw [if_pos hlt] at hq2
      exact hins q hq2
    · rw [if_neg hlt] at hq2
      exact hd q hq2

theorem dedupFold_values (canonP : List PAtom → String)
    (P : Prediction → Prop) :
    ∀ (preds : List Prediction) (d0 : List (String × Prediction)),
      (∀ q ∈ d0, P q.2) → (∀ p ∈ preds, P p) →
      ∀ q ∈ preds.foldl (dedupStep canonP) d0, P q.2 := by
  intro preds
  induction preds with
  | nil => intro d0 hd _; exact hd
  | cons p rest ih =>
    intro d0 hd hl
    rw [List.foldl_cons]
    exact ih _ (mem_dedupStep_values canonP d0 p P hd
        (hl p (List.mem_cons_self p rest)))
      (fun p2 hp2 => hl p2 (List.mem_cons_of_mem p hp2))

theorem map_snd_filter_eq_find (canonP : List PAtom → String) :
    ∀ (d : List (String × Prediction)) (k : String), DictWF canonP d →
      (d.map (fun q => q.2)).filter
          (fun p => get_product_smiles canonP p = k)
        = (dictFind d k).toList := by
  intro d
  induction d with
  | nil => intro k _; rfl
  | cons q rest ih =>
    intro k hwf
    have hkey : q.1 = get_product_smiles canonP q.2 :=
      hwf.1 q (List.mem_cons_self q rest)
    have hwfr : DictWF canonP rest := by
      refine ⟨fun q2 hq2 => hwf.1 q2 (List.mem_cons_of_mem q hq2), ?_⟩
      have := hwf.2
      unfold dictKeys at this
      rw [List.map_cons, List.nodup_cons] at this
      exact this.2
    have hknotin : q.1 ∉ dictKeys rest := by
      have := hwf.2
      unfold dictKeys at this ⊢
      rw [List.map_cons, List.nodup_cons] at this
      exact this.1
    rw [List.map_cons, List.filter_cons, dictFind]
    by_cases hqk : q.1 = k
    · rw [if_pos hqk, if_pos (decide_eq_true (hkey.symm.trans hqk))]
      have hrest : (rest.map (fun q => q.2)).filter
          (fun p => get_product_smiles canonP p = k) = [] := by
        apply List.filter_eq_nil.mpr
        intro p hp
        rcases List.mem_map.mp hp with ⟨q2, hq2, hq2p⟩
        have hk2 : q2.1 = get_product_smiles canonP q2.2 :=
          hwfr.1 q2 hq2
        intro hcontra
        apply hknotin
        have h3 : get_product_smiles canonP p = k := of_decide_eq_true hcontra
        rw [hqk]
        rw [← h3, ← hq2p, ← hk2]
        unfold dictKeys
        exact List.mem_map.mpr ⟨q2, hq2, rfl⟩
      rw [hrest]
      rfl
    · rw [if_neg hqk,
        if_neg (fun hh => hqk (hkey.trans (of_decide_eq_true hh))),
        ih k hwfr]

/-- C3 amended: grouping predictions by clean-product canonical identity,
when every score in a group is a number (no NaN), the deduplication keeps
exactly the first prediction of the group whose score no other member
strictly exceeds — the highest score, ties resolved to the first
encountered; every retained prediction is one of the inputs.  (When a NaN
score is present this fails: a first-encountered NaN prediction is retained
because Python float comparisons with NaN are always false.) -/
theorem dedup_group_keeps_first_max (canonP : List PAtom → String)
    (preds : List Prediction) (k : String)
    (h : ∀ p ∈ group canonP preds k, p.score ≠ none) :
    (dedupPredictions canonP preds).filter
        (fun p => get_product_smiles canonP p = k)
      = (specBest (group canonP preds k)).toList ∧
    ∀ q ∈ dedupPredictions canonP preds, q ∈ preds := by
  constructor
  · have hwf : DictWF canonP (preds.foldl (dedupStep canonP) []) :=
      dedupFold_wf canonP preds [] ⟨fun q hq => absurd hq (List.not_mem_nil q),
        List.nodup_nil⟩
    unfold dedupPredictions
    rw [map_snd_filter_eq_find canonP _ k hwf]
    rw [dedupFold_find canonP preds [] k]
    have h0 : dictFind ([] : List (String × Prediction)) k = none := rfl
    rw [h0]
    rw [foldl_updBest_eq_specBest _ h]
  · intro q hq
    unfold dedupPredictions at hq
    rcases List.mem_map.mp hq with ⟨q2, hq2, hq2q⟩
    exact hq2q ▸ dedupFold_values canonP (fun p => p ∈ preds) preds []
      (fun q3 hq3 => absurd hq3 (List.not_mem_nil q3)) (fun p hp => hp) q2 hq2

/-- Counterexample reaction for C3. -/
def crC3 : CReaction :=
  { educt := [], product := [⟨6, none, none, 0⟩], name := none,
    priority := none, subset := none }

/-- First prediction of the C3 counterexample group: NaN score. -/
def cpNan : Prediction := ⟨crC3, none⟩

/-- Second prediction of the C3 counterexample group: score 2. -/
def cpTwo : Prediction := ⟨crC3, some 2⟩

/-- C3 counterexample: two predictions with the same product identity, the
first NaN-scored and the second scored 2; the deduplication keeps the
NaN-scored one, not the one with the highest score. -/
theorem dedup_keeps_first_nan_counterexample :
    dedupPredictions (fun _ => "p") [cpNan, cpTwo] = [cpNan] ∧
    cpNan.score = none ∧ cpTwo.score = some 2 ∧
    get_product_smiles (fun _ => "p") cpNan
      = get_product_smiles (fun _ => "p") cpTwo ∧
    cpNan ≠ cpTwo := by decide

/-- Witness prediction for the C3 amended theorem: score 1. -/
def wpOne : Prediction := ⟨crC3, some 1⟩

/-- Witness prediction for the C3 amended theorem: score 2. -/
def wpTwo : Prediction := ⟨crC3, some 2⟩

theorem dedup_group_witness :
    (∀ p ∈ group (fun _ => "p") [wpOne, wpTwo] "p", p.score ≠ none) ∧
    ((dedupPredictions (fun _ => "p") [wpOne, wpTwo]).filter
        (fun p => get_product_smiles (fun _ => "p") p = "p")
      = (specBest (group (fun _ => "p") [wpOne, wpTwo] "p")).toList ∧
     ∀ q ∈ dedupPredictions (fun _ => "p") [wpOne, wpTwo],
       q ∈ [wpOne, wpTwo]) :=
  ⟨by decide,
   dedup_group_keeps_first_max (fun _ => "p") [wpOne, wpTwo] "p" (by decide)⟩

/-! ### `reactor.py`: concrete-reaction generation (claims C6 and C7) -/

/-- A raw candidate product from `RunReactants`, tagged with whether
`SanitizeMol` succeeds on it. -/
structure RawProduct where
  sanitizeOk : Bool
  mol : List PAtom
deriving DecidableEq

/-- The metadata of an abstract reaction rule (`_Name`, `_Priority`,
`_Subset`, each possibly absent). -/
structure AbstractReaction where
  name : Option String
  priority : Option String
  subset : Option String
deriving DecidableEq

/-- `_to_concrete_reactions` builds this for each surviving candidate:
the educt and product copies plus the rule metadata copied when present. -/
def mkConcreteReaction (rxn : AbstractReaction) (educt : List EAtom)
    (p : RawProduct) : CReaction :=
  { educt := educt, product := p.mol, name := rxn.name,
    priority := rxn.priority, subset := rxn.subset }

/-- The candidate loop of `_to_concrete_reactions`: discard unsanitizable
candidates silently, then discard candidates whose InChI is already in the
`known_products` set. -/
def toConcreteReactionsGo (inchi : List PAtom → String)
    (rxn : AbstractReaction) (educt : List EAtom) :
    List RawProduct → List String → List CReaction
  | [], _ => []
  | p :: ps, known =>
    if p.sanitizeOk then
      if inchi p.mol ∈ known then
        toConcreteReactionsGo inchi rxn educt ps known
      else
        mkConcreteReaction rxn educt p ::
          toConcreteReactionsGo inchi rxn educt ps (inchi p.mol :: known)
    else toConcreteReactionsGo inchi rxn educt ps known

/-- `_to_concrete_reactions`, from the raw products of one rule application
(the external `RunReactants` output) on; `inchi` is the external canonical
identity (`MolToInchi` after sanitization). -/
def _to_concrete_reactions (inchi : List PAtom → String)
    (rxn : AbstractReaction) (educt : List EAtom)
    (products : List RawProduct) : List CReaction :=
  toConcreteReactionsGo inchi rxn educt products []

/-- Modelled from the spec: deduplication by a canonical identity string
where the first occurrence wins and later duplicates are discarded. -/
def dedupFirstBy {α : Type} (key : α → String) : List α → List α
  | [] => []
  | x :: xs => x :: dedupFirstBy key (xs.filter (fun y => key y ≠ key x))
termination_by l => l.length
decreasing_by
  simp only [List.length_cons]
  exact Nat.lt_succ_of_le (List.length_filter_le _ xs)

theorem toConcreteReactionsGo_eq (inchi : List PAtom → String)
    (rxn : AbstractReaction) (educt : List EAtom) :
    ∀ (products : List RawProduct) (known : List String),
      toConcreteReactionsGo inchi rxn educt products known
        = (dedupFirstBy (fun p => inchi p.mol)
            ((products.filter (fun p => p.sanitizeOk)).filter
              (fun p => ¬ inchi p.mol ∈ known))).map
          (mkConcreteReaction rxn educt) := by
  intro products
  induction products with
  | nil =>
    intro known
    simp [toConcreteReactionsGo, dedupFirstBy]
  | cons p ps ih =>
    intro known
    rw [toConcreteReactionsGo]
    by_cases hs : p.sanitizeOk = true
    · rw [if_pos hs]
      have h1 : (p :: ps).filter (fun q => q.sanitizeOk)
          = p :: ps.filter (fun q => q.sanitizeOk) := by
        rw [List.filter_cons, if_pos hs]
      by_cases hk : inchi p.mol ∈ known
      · rw [if_pos hk, ih known, h1, List.filter_cons,
          if_neg (fun hh => (of_decide_eq_true hh) hk)]
      · rw [if_neg hk, ih (inchi p.mol :: known), h1, List.filter_cons,
          if_pos (decide_eq_true hk)]
        rw [dedupFirstBy]
        rw [List.map_cons]
        have h2 : ((ps.filter (fun q => q.sanitizeOk)).filter
              (fun q => ¬ inchi q.mol ∈ known)).filter
              (fun y => inchi y.mol ≠ inchi p.mol)
            = (ps.filter (fun q => q.sanitizeOk)).filter
              (fun q => ¬ inchi q.mol ∈ inchi p.mol :: known) := by
          rw [List.filter_filter]
          apply List.filter_congr
          intro a _
          by_cases h3 : inchi a.mol = inchi p.mol
          · simp [h3]
          · by_cases h4 : inchi a.mol ∈ known
            · simp [h3, h4]
            · simp [h3, h4]
        rw [h2]
    · rw [if_neg hs, ih known]
      have h1 : (p :: ps).filter (fun q => q.sanitizeOk)
          = ps.filter (fun q => q.sanitizeOk) := by
        rw [List.filter_cons, if_neg hs]
      rw [h1]

/-- C6: within one rule application, the surviving (sanitizable) raw
candidates are deduplicated by canonical identity with the first occurrence
winning; in particular two sanitizable candidates with identical canonical
identity (e.g. from two match positions on a symmetric molecule) yield
exactly one ConcreteReaction, built from the first. -/
theorem to_concrete_reactions_dedup_first (inchi : List PAtom → String)
    (rxn : AbstractReaction) (educt : List EAtom)
    (products : List RawProduct) :
    _to_concrete_reactions inchi rxn educt products
      = (dedupFirstBy (fun p => inchi p.mol)
          (products.filter (fun p => p.sanitizeOk))).map
        (mkConcreteReaction rxn educt) ∧
    ∀ p q : RawProduct, p.sanitizeOk = true → q.sanitizeOk = true →
      inchi p.mol = inchi q.mol →
      _to_concrete_reactions inchi rxn educt [p, q]
        = [mkConcreteReaction rxn educt p] := by
  have hmain : ∀ ps : List RawProduct,
      _to_concrete_reactions inchi rxn educt ps
        = (dedupFirstBy (fun p => inchi p.mol)
            (ps.filter (fun p => p.sanitizeOk))).map
          (mkConcreteReaction rxn educt) := by
    intro ps
    unfold _to_concrete_reactions
    rw [toConcreteReactionsGo_eq inchi rxn educt ps []]
    have h1 : (ps.filter (fun p => p.sanitizeOk)).filter
          (fun p => ¬ inchi p.mol ∈ ([] : List String))
        = ps.filter (fun p => p.sanitizeOk) := by
      apply List.filter_eq_self.mpr
      intro a _
      simp
    rw [h1]
  refine ⟨hmain products, ?_⟩
  intro p q hp hq heq
  rw [hmain [p, q]]
  have h1 : ([p, q].filter (fun r => r.sanitizeOk)) = [p, q] := by
    rw [List.filter_cons, if_pos hp, List.filter_cons, if_pos hq]
    rfl
  rw [h1, dedupFirstBy]
  have h2 : [q].filter (fun y => inchi y.mol ≠ inchi p.mol) = [] := by
    rw [List.filter_cons, if_neg (fun hh => (of_decide_eq_true hh) heq.symm)]
    rfl
  rw [h2]
  simp [dedupFirstBy]

/-- Witness raw products for C6: two sanitizable candidates with identical
canonical identity. -/
def rawP : RawProduct := ⟨true, [⟨6, none, none, 0⟩]⟩

/-- Second witness candidate. -/
def rawQ : RawProduct := ⟨true, [⟨7, none, none, 0⟩]⟩

/-- Witness rule for C6. -/
def rxnC6 : AbstractReaction := ⟨some "n", some "common", some "s"⟩

theorem to_concrete_reactions_witness :
    _to_concrete_reactions (fun _ => "i") rxnC6 [] [rawP, rawQ]
      = [mkConcreteReaction rxnC6 [] rawP] :=
  (to_concrete_reactions_dedup_first (fun _ => "i") rxnC6 [] [rawP, rawQ]).2
    rawP rawQ rfl rfl rfl

/-- A combined reaction whose stored product may decompose into several
disconnected fragments (`GetMolFrags`). -/
structure CombinedReaction where
  educt : List EAtom
  product : List (List PAtom)
  name : Option String
  priority : Option String
  subset : Option String
deriving DecidableEq

/-- `_separate_reactions_for_products`: a single-fragment product returns
the reaction unchanged; otherwise one reaction per fragment, sharing the
educt and the copied metadata. -/
def _separate_reactions_for_products (r : CombinedReaction) :
    List CombinedReaction :=
  if r.product.length = 1 then [r]
  else r.product.map (fun f =>
    { educt := r.educt, product := [f], name := r.name,
      priority := r.priority, subset := r.subset })

/-- C7: a product with n > 1 fragments yields exactly n reactions, one per
fragment, each sharing the educt and retaining the rule's name, priority
and subset; a single-fragment product yields the reaction unchanged. -/
theorem separate_reactions_one_per_fragment (r : CombinedReaction) :
    (1 < r.product.length →
      (_separate_reactions_for_products r).length = r.product.length ∧
      (_separate_reactions_for_products r).map CombinedReaction.product
        = r.product.map (fun f => [f]) ∧
      ∀ s ∈ _separate_reactions_for_products r,
        s.educt = r.educt ∧ s.name = r.name ∧ s.priority = r.priority ∧
          s.subset = r.subset) ∧
    (r.product.length = 1 → _separate_reactions_for_products r = [r]) := by
  constructor
  · intro hgt
    have hne : ¬ r.product.length = 1 := by omega
    unfold _separate_reactions_for_products
    rw [if_neg hne]
    refine ⟨List.length_map _ _, ?_, ?_⟩
    · rw [List.map_map]
      rfl
    · intro s hs
      rcases List.mem_map.mp hs with ⟨f, _, hfs⟩
      rw [← hfs]
      exact ⟨rfl, rfl, rfl, rfl⟩
  · intro heq
    unfold _separate_reactions_for_products
    rw [if_pos heq]

/-- Witness combined reaction for C7: a two-fragment product. -/
def crC7 : CombinedReaction :=
  { educt := [⟨0⟩], product := [[⟨6, none, none, 0⟩], [⟨8, none, none, 0⟩]],
    name := some "n", priority := some "common", subset := some "s" }

theorem separate_reactions_witness :
    1 < crC7.product.length ∧
    ((_separate_reactions_for_products crC7).length = crC7.product.length ∧
     (_separate_reactions_for_products crC7).map CombinedReaction.product
        = crC7.product.map (fun f => [f]) ∧
     ∀ s ∈ _separate_reactions_for_products crC7,
       s.educt = crC7.educt ∧ s.name = crC7.name ∧
         s.priority = crC7.priority ∧ s.subset = crC7.subset) :=
  ⟨by decide, (separate_reactions_one_per_fragment crC7).1 (by decide)⟩

/-! ### `predictor.py`: largest fragment and heavy-atom filter (claim C4) -/

/-- A molecule as its fragment decomposition; each fragment is the list of
its atoms' atomic numbers. -/
abbrev FragMol := List (List Nat)

/-- Python `max(fragments, key=GetNumAtoms)`: the first fragment of maximal
atom count. -/
def largestFrag (f : List Nat) (fs : List (List Nat)) : List Nat :=
  fs.foldl (fun best g => if best.length < g.length then g else best) f

/-- `get_largest_fragment`: when the molecule has more than one fragment,
keep only the largest; otherwise return it unchanged. -/
def get_largest_fragment (m : FragMol) : FragMol :=
  if 1 < m.length then
    match m with
    | [] => m
    | f :: fs => [largestFrag f fs]
  else m

/-- One prediction row of `predict_molecules` after deduplication. -/
structure PredRow where
  parent_name : String
  metabolite : FragMol
  score : Score
deriving DecidableEq

/-- `GetNumHeavyAtoms` of the (re-parsed) metabolite. -/
def heavyAtomsF (m : FragMol) : Nat :=
  ((m.join).filter (fun z => z ≠ 1)).length

/-- The post-deduplication tail of `MetabolitePredictor.predict_molecules`:
replace each metabolite by its largest fragment, then drop rows whose
metabolite has fewer than 3 heavy atoms. -/
def fragment_and_size_filter (rows : List PredRow) : List PredRow :=
  (rows.map (fun r =>
    { r with metabolite := get_largest_fragment r.metabolite })).filter
    (fun r => 3 ≤ heavyAtomsF r.metabolite)

theorem largestFrag_spec (f : List Nat) (fs : List (List Nat)) :
    largestFrag f fs ∈ f :: fs ∧
      ∀ g ∈ f :: fs, g.length ≤ (largestFrag f fs).length := by
  induction fs generalizing f with
  | nil =>
    refine ⟨List.mem_cons_self f [], ?_⟩
    intro g hg
    rcases List.mem_cons.mp hg with h | h
    · rw [h]
      exact le_refl _
    · cases h
  | cons b t ih =>
    have hfold : largestFrag f (b :: t)
        = largestFrag (if f.length < b.length then b else f) t := rfl
    obtain ⟨hm, hb⟩ := ih (if f.length < b.length then b else f)
    have hz : (if f.length < b.length then b else f).length
        ≤ (largestFrag (if f.length < b.length then b else f) t).length :=
      hb _ (List.mem_cons_self _ t)
    constructor
    · rw [hfold]
      rcases List.mem_cons.mp hm with h | h
      · rw [h]
        by_cases hxb : f.length < b.length
        · rw [if_pos hxb]
          exact List.mem_cons_of_mem f (List.mem_cons_self b t)
        · rw [if_neg hxb]
          exact List.mem_cons_self f (b :: t)
      · exact List.mem_cons_of_mem f (List.mem_cons_of_mem b h)
    · intro g hg
      rw [hfold]
      rcases List.mem_cons.mp hg with h | h
      · rw [h]
        refine le_trans ?_ hz
        by_cases hxb : f.length < b.length
        · rw [if_pos hxb]
          exact le_of_lt hxb
        · rw [if_neg hxb]
      · rcases List.mem_cons.mp h with h2 | h2
        · rw [h2]
          refine le_trans ?_ hz
          by_cases hxb : f.length < b.length
          · rw [if_pos hxb]
          · rw [if_neg hxb]
            exact le_of_not_lt hxb
        · exact hb g (List.mem_cons_of_mem _ h2)

/-- C4: after the aggregation-level deduplication, every row's metabolite
is replaced by its largest fragment (first maximal by atom count; unchanged
when single-fragment), rows below 3 heavy atoms are dropped, and hence
every surviving row has a metabolite with at least 3 heavy atoms. -/
theorem fragment_filter_spec (rows : List PredRow) :
    (∀ r ∈ fragment_and_size_filter rows,
      3 ≤ heavyAtomsF r.metabolite ∧
      ∃ r0 ∈ rows,
        r = { r0 with metabolite := get_largest_fragment r0.metabolite }) ∧
    (∀ m : FragMol, 1 < m.length → ∃ f ∈ m, get_largest_fragment m = [f] ∧
      ∀ g ∈ m, g.length ≤ f.length) ∧
    (∀ m : FragMol, ¬ 1 < m.length → get_largest_fragment m = m) := by
  refine ⟨?_, ?_, ?_⟩
  · intro r hr
    unfold fragment_and_size_filter at hr
    rcases List.mem_filter.mp hr with ⟨hmem, hheavy⟩
    rcases List.mem_map.mp hmem with ⟨r0, hr0, hr0r⟩
    exact ⟨of_decide_eq_true hheavy, r0, hr0, hr0r.symm⟩
  · intro m hm
    cases m with
    | nil => simp at hm
    | cons f fs =>
      obtain ⟨hmem, hmax⟩ := largestFrag_spec f fs
      refine ⟨largestFrag f fs, hmem, ?_, hmax⟩
      unfold get_largest_fragment
      rw [if_pos hm]
  · intro m hm
    unfold get_largest_fragment
    rw [if_neg hm]

/-- Witness row for C4: a two-fragment metabolite whose largest fragment
has 3 heavy atoms. -/
def rowC4 : PredRow := ⟨"m", [[6], [6, 8, 7]], some 1⟩

theorem fragment_filter_witness :
    (⟨"m", [[6, 8, 7]], some 1⟩ : PredRow) ∈ fragment_and_size_filter [rowC4] ∧
    (3 ≤ heavyAtomsF [[6, 8, 7]] ∧
      ∃ r0 ∈ [rowC4], (⟨"m", [[6, 8, 7]], some 1⟩ : PredRow)
        = { r0 with metabolite := get_largest_fragment r0.metabolite }) ∧
    (∃ f ∈ rowC4.metabolite,
      get_largest_fragment rowC4.metabolite = [f] ∧
      ∀ g ∈ rowC4.metabolite, g.length ≤ f.length) :=
  ⟨by decide,
   (fragment_filter_spec [rowC4]).1 ⟨"m", [[6, 8, 7]], some 1⟩ (by decide),
   (fragment_filter_spec [rowC4]).2.1 rowC4.metabolite (by decide)⟩

end GloryxR
